import Mathlib

/-! khmer: k-mer hashing (`lib/kmer_hash.cc`)

A shallow embedding of the packed two-bit k-mer encoder `_hash`, its decoder
`_revhash` and the string transform `_revcomp`, followed by the properties the
specification states about them.

* `HashIntoType` is a 64-bit unsigned integer: a `Nat` reduced modulo `2 ^ 64`
  after every operation that can leave the range.
* A `const char *` argument is a `List Char` followed by an implicit NUL
  terminator; `strlen` stops at the first NUL.
* A `std::string` is a `List Char`.
* The symbol codec (`twobit_repr`, `twobit_comp`, `revtwobit_repr`) lives in
  `khmer.hh`; it is a parameter of the embedding (`Codec`), and the theorems
  name the codec laws they rely on.
* The mixing function (`MurmurHash3.h`), the digest (`sha1.h`) and the width of
  `WordLength` (`khmer.hh`) are parameters as well.
-/

namespace khmer

/-! ## Data model -/

/-- The two ways a call can fail to return: the `khmer_exception` thrown by the
length check of `_hash`, and a character read outside the NUL-terminated
buffer, for which the language defines no result. -/
inductive Fault where
  | khmer_exception
  | out_of_bounds
  deriving DecidableEq

/-- Equality of call results is decidable, so that the embedding can be
evaluated on concrete inputs. -/
instance {ε α : Type} [DecidableEq ε] [DecidableEq α] : DecidableEq (Except ε α) :=
  fun a b =>
    match a, b with
    | .ok x, .ok y =>
      if h : x = y then isTrue (by rw [h]) else isFalse (fun e => h (by injection e))
    | .error x, .error y =>
      if h : x = y then isTrue (by rw [h]) else isFalse (fun e => h (by injection e))
    | .ok _, .error _ => isFalse (fun e => by cases e)
    | .error _, .ok _ => isFalse (fun e => by cases e)

/-- Number of bytes of `HashIntoType` (`sizeof(HashIntoType)`), the 64-bit
packed-hash type. -/
def sizeof_HashIntoType : Nat := 8

/-- Reduction of a natural number to the range of `HashIntoType`. -/
def wrap (n : Nat) : Nat := n % 2 ^ (8 * sizeof_HashIntoType)

/-- The symbol codec of `khmer.hh`, consumed through its three functions:
`twobit_repr` (symbol to 2-bit code), `twobit_comp` (symbol to the code of its
complement) and `revtwobit_repr` (code to symbol). -/
structure Codec where
  twobit_repr : Char → Nat
  twobit_comp : Char → Nat
  revtwobit_repr : Nat → Char

/-- Modelled from the spec: the canonicaliser `uniqify_rc` of `khmer.hh`, which
is not part of this file; section 4.3 gives it as `max(h, r)`, and the comment
above the two-argument `_hash` says the same. -/
def uniqify_rc (h r : Nat) : Nat := max h r

/-- The terminating NUL character. -/
def NUL : Char := Char.ofNat 0

/-- Length of a C string: the number of characters before the first NUL. -/
def strlen (kmer : List Char) : Nat :=
  (kmer.takeWhile (fun ch => ch != NUL)).length

/-- The read `kmer[i]` on a C string: a character of the string, the
terminator right behind it, and no defined result anywhere else. -/
def charAt (kmer : List Char) (i : Int) : Except Fault Char :=
  if i < 0 then .error .out_of_bounds
  else
    match kmer.get? i.toNat with
    | some ch => .ok ch
    | none => if i.toNat = kmer.length then .ok NUL else .error .out_of_bounds

/-! ## `_hash` -/

/-- The `for (i = 1, j = k - 2; i < k; i++, j--)` loop of `_hash`. The first
argument is the number of iterations still to run, `k - i`; then come the
loop variables `i`, `j` and the accumulators `h`, `r`. The index `j` is only
read inside the loop, where it lies in `[0, k - 2]`. -/
def hash_loop (c : Codec) (kmer : List Char) :
    Nat → Nat → Int → Nat → Nat → Except Fault (Nat × Nat)
  | 0, _, _, h, r => .ok (h, r)
  | n + 1, i, j, h, r => do
    let h := wrap (h <<< 2)
    let r := wrap (r <<< 2)
    let ci ← charAt kmer i
    let h := wrap (h ||| c.twobit_repr ci)
    let cj ← charAt kmer j
    let r := wrap (r ||| c.twobit_comp cj)
    hash_loop c kmer n (i + 1) (j - 1) h r

/-- The four-argument `_hash(kmer, k, _h, _r)`; `k` is the value of the
`WordLength` argument. On success the result is the returned value followed by
the values written to `_h` and `_r`; nothing is written when the call does not
return. -/
def _hash (c : Codec) (kmer : List Char) (k : Nat) : Except Fault (Nat × Nat × Nat) :=
  if ¬ (k ≤ sizeof_HashIntoType * 4) ∨ ¬ (strlen kmer ≥ k) then
    .error .khmer_exception
  else do
    let h := 0
    let r := 0
    let c0 ← charAt kmer 0
    let h := wrap (h ||| c.twobit_repr c0)
    let ck ← charAt kmer ((k : Int) - 1)
    let r := wrap (r ||| c.twobit_comp ck)
    let (h, r) ← hash_loop c kmer (k - 1) 1 ((k : Int) - 2) h r
    .ok (uniqify_rc h r, h, r)

/-- The two-argument `_hash(kmer, k)`: the returned value of the four-argument
form. -/
def _hash_kmer (c : Codec) (kmer : List Char) (k : Nat) : Except Fault Nat :=
  (_hash c kmer k).map (fun res => res.1)

/-- The function `_hash_forward(kmer, k)`: the value `_hash` writes to `_h`. -/
def _hash_forward (c : Codec) (kmer : List Char) (k : Nat) : Except Fault Nat :=
  (_hash c kmer k).map (fun res => res.2.1)

/-! ## `_revhash` -/

/-- The `for (i = 1; i < k; i++)` loop of `_revhash`; the first argument is the
number of iterations still to run. -/
def revhash_loop (c : Codec) : Nat → Nat → List Char → List Char
  | 0, _, s => s
  | n + 1, hash, s =>
    let hash := hash >>> 2
    let val := hash &&& 3
    revhash_loop c n hash (s ++ [c.revtwobit_repr val])

/-- The decoder `_revhash(hash, k)`. -/
def _revhash (c : Codec) (hash : Nat) (k : Nat) : List Char :=
  let s : List Char := []
  let val := hash &&& 3
  let s := s ++ [c.revtwobit_repr val]
  (revhash_loop c (k - 1) hash s).reverse

/-! ## `_revcomp` -/

/-- The `switch` of `_revcomp`: the complement of one character. -/
def complement (ch : Char) : Char :=
  if ch = 'A' then 'T'
  else if ch = 'C' then 'G'
  else if ch = 'G' then 'C'
  else if ch = 'T' then 'A'
  else ch

/-- Conversion of a `size_t` to `int`, the initialisation `int ksize = out.size()`:
`int` has 32 bits and the value is reduced modulo `2 ^ 32` into
`[-2 ^ 31, 2 ^ 31)`. -/
def size_to_int (n : Nat) : Int :=
  if n % 2 ^ 32 < 2 ^ 31 then ((n % 2 ^ 32 : Nat) : Int)
  else ((n % 2 ^ 32 : Nat) : Int) - 2 ^ 32

/-- The `for (int i = 0; i < ksize; ++i)` loop of `_revcomp`; the first argument
is the number of iterations still to run, `ksize - i`. -/
def revcomp_loop (kmer : List Char) (ksize : Int) : Nat → Nat → List Char → List Char
  | 0, _, out => out
  | n + 1, i, out =>
    revcomp_loop kmer ksize n (i + 1)
      (out.set (ksize - i - 1).toNat (complement (kmer.getD i NUL)))

/-- The string transform `_revcomp(kmer)`. The length is held in the `int`
`ksize`: when the conversion gives a value that is not positive the loop does
not run, and it runs `ksize` times otherwise. -/
def _revcomp (kmer : List Char) : List Char :=
  let out := kmer
  let ksize := size_to_int out.length
  revcomp_loop kmer ksize ksize.toNat 0 out

/-! ## `_hash_murmur` -/

/-- Conversion of `kmer.size()` to the `WordLength` parameter of `_hash`.
`WordLength` is declared in `khmer.hh`; it is an unsigned integer type, and its
number of bits is the parameter `bits` (8 for `unsigned char`). -/
def toWordLength (bits : Nat) (n : Nat) : Nat := n % 2 ^ bits

/-- The three-argument `_hash_murmur(kmer, h, r)`. The function `mix` stands for
`MurmurHash3_x64_128` with seed 0 (`MurmurHash3.h`): `mix v` is the word
`out[0]` it produces on the 8 bytes of `v`. On success the result is the
returned value followed by the values left in `h` and `r`. -/
def _hash_murmur (bits : Nat) (c : Codec) (mix : Nat → Nat) (kmer : List Char) :
    Except Fault (Nat × Nat × Nat) := do
  let (_, h, r) ← _hash c kmer (toWordLength bits kmer.length)
  let h := wrap (mix h)
  let r := wrap (mix r)
  .ok (h ^^^ r, h, r)

/-- The one-argument `_hash_murmur(kmer)`. -/
def _hash_murmur_kmer (bits : Nat) (c : Codec) (mix : Nat → Nat) (kmer : List Char) :
    Except Fault Nat :=
  (_hash_murmur bits c mix kmer).map (fun res => res.1)

/-- The function `_hash_murmur_forward(kmer)`: the value left in `h`. -/
def _hash_murmur_forward (bits : Nat) (c : Codec) (mix : Nat → Nat) (kmer : List Char) :
    Except Fault Nat :=
  (_hash_murmur bits c mix kmer).map (fun res => res.2.1)

/-! ## `_hash_sha1` -/

/-- The byte `digest[i]`, a `uint8_t`, after `SHA1_Init`, `SHA1_Update` on the
characters of `s` and `SHA1_Final`; `sha1` is the digest function of `sha1.h`,
given by the bytes it writes. -/
def digestByte (sha1 : List Char → Nat → Nat) (s : List Char) (i : Nat) : Nat :=
  sha1 s i % 256

/-- The loop `for (i = 0; i < 8; i++) { buf = digest[i]; h |= buf << ((7 - i) * 8); }`
of `_hash_sha1`; the first argument is the number of iterations still to run,
`digest` gives the bytes of the digest. -/
def sha1_fold (digest : Nat → Nat) : Nat → Nat → Nat → Nat
  | 0, _, h => h
  | n + 1, i, h =>
    let buf := digest i
    sha1_fold digest n (i + 1) (wrap (h ||| wrap (buf <<< ((7 - i) * 8))))

/-- The three-argument `_hash_sha1(kmer, h, r)`: the returned value followed by
the values left in `h` and `r`. -/
def _hash_sha1 (sha1 : List Char → Nat → Nat) (kmer : List Char) : Nat × Nat × Nat :=
  let h := 0
  let r := 0
  let h := sha1_fold (digestByte sha1 kmer) 8 0 h
  let rev := _revcomp kmer
  let r := sha1_fold (digestByte sha1 rev) 8 0 r
  (h ^^^ r, h, r)

/-- The one-argument `_hash_sha1(kmer)`. -/
def _hash_sha1_kmer (sha1 : List Char → Nat → Nat) (kmer : List Char) : Nat :=
  (_hash_sha1 sha1 kmer).1

/-- The function `_hash_sha1_forward(kmer)`: the value left in `h`. -/
def _hash_sha1_forward (sha1 : List Char → Nat → Nat) (kmer : List Char) : Nat :=
  (_hash_sha1 sha1 kmer).2.1

/-! ## Codec laws and a concrete codec -/

/-- The four recognised symbols. -/
def isNucleotide (ch : Char) : Prop := ch = 'A' ∨ ch = 'C' ∨ ch = 'G' ∨ ch = 'T'

instance (ch : Char) : Decidable (isNucleotide ch) := by
  unfold isNucleotide; infer_instance

/-- The encoder `twobit_repr` returns 2-bit values. -/
def Codec.TwoBit (c : Codec) : Prop := ∀ ch, c.twobit_repr ch < 4

/-- Codec round trip: `decode(code(x)) = x` on the four symbols. -/
def Codec.RoundTrip (c : Codec) : Prop :=
  ∀ ch, isNucleotide ch → c.revtwobit_repr (c.twobit_repr ch) = ch

/-- Complement law: `complementCode(x) = code(complement(x))` on the four
symbols. -/
def Codec.ComplementLaw (c : Codec) : Prop :=
  ∀ ch, isNucleotide ch → c.twobit_comp ch = c.twobit_repr (complement ch)

/-- Modelled from the spec: the codec instance of the worked example in
section 8 (`A=0, C=1, G=2, T=3`); the table itself is in `khmer.hh`. Characters
outside the alphabet, for which the spec fixes nothing, are given code 0. -/
def exampleCodec : Codec where
  twobit_repr := fun ch =>
    if ch = 'A' then 0 else if ch = 'C' then 1 else if ch = 'G' then 2
    else if ch = 'T' then 3 else 0
  twobit_comp := fun ch =>
    if ch = 'A' then 3 else if ch = 'C' then 2 else if ch = 'G' then 1
    else if ch = 'T' then 0 else 0
  revtwobit_repr := fun n =>
    if n = 0 then 'A' else if n = 1 then 'C' else if n = 2 then 'G' else 'T'

/-! ## Auxiliary definitions for the proofs -/

/-- One encoder step on an accumulator: `a = a << 2; a |= x`. -/
def shiftOr (a x : Nat) : Nat := wrap (wrap (a <<< 2) ||| x)

/-- MSB-first packing of a list of 2-bit codes, by Horner's rule. -/
def packCodes (codes : List Nat) : Nat := codes.foldl (fun a x => a * 4 + x) 0

/-- The `n` low base-4 digits of `v`, least significant first. -/
def digitsLSB : Nat → Nat → List Nat
  | 0, _ => []
  | n + 1, v => v % 4 :: digitsLSB n (v / 4)

/-- LSB-first packing of a list of 2-bit codes. -/
def packRev (codes : List Nat) : Nat := codes.foldr (fun x a => a * 4 + x) 0

/-! ## Reads inside the string -/

theorem strlen_le_length (kmer : List Char) : strlen kmer ≤ kmer.length := by
  unfold strlen
  exact (List.takeWhile_sublist _).length_le

theorem charAt_of_lt (kmer : List Char) (i : Nat) (h : i < kmer.length) :
    charAt kmer (i : Int) = .ok (kmer.getD i NUL) := by
  unfold charAt
  have h1 : ¬ ((i : Int) < 0) := by omega
  simp [h1, List.getD, List.get?_eq_getElem?, List.getElem?_eq_getElem h]

theorem take_succ_drop (kmer : List Char) (i n : Nat) (h : i + n < kmer.length) :
    (kmer.drop i).take (n + 1) = (kmer.drop i).take n ++ [kmer.getD (i + n) NUL] := by
  rw [List.take_succ]
  simp [List.getElem?_drop, List.getD, List.getElem?_eq_getElem h]

theorem drop_take_succ (kmer : List Char) (i n : Nat) (h : i < kmer.length) :
    (kmer.drop i).take (n + 1) = kmer.getD i NUL :: (kmer.drop (i + 1)).take n := by
  rw [List.drop_eq_getElem_cons h, List.take_succ_cons]
  simp [List.getD, List.getElem?_eq_getElem h]

/-! ## The encoder as a fold -/

theorem hash_loop_eq (c : Codec) (kmer : List Char) (m : Nat) :
    ∀ (n i : Nat) (j : Int) (h r : Nat), i + n ≤ kmer.length → m + n ≤ kmer.length →
      j = (m : Int) + n - 1 →
      hash_loop c kmer n i j h r =
        .ok ((((kmer.drop i).take n).map c.twobit_repr).foldl shiftOr h,
             (((kmer.drop m).take n).reverse.map c.twobit_comp).foldl shiftOr r) := by
  intro n
  induction n with
  | zero => intro i j h r _ _ _; simp [hash_loop]
  | succ n ih =>
    intro i j h r hi hm hj
    have hj2 : j = ((m + n : Nat) : Int) := by push_cast; omega
    have ci := charAt_of_lt kmer i (by omega)
    have cj := charAt_of_lt kmer (m + n) (by omega)
    rw [hash_loop, ci, hj2, cj]
    simp only [bind, Except.bind]
    rw [ih (i + 1) _ _ _ (by omega) (by omega) (by push_cast; omega)]
    rw [drop_take_succ kmer i n (by omega), take_succ_drop kmer m n (by omega)]
    simp [shiftOr]

theorem hash_eq_fold (c : Codec) (kmer : List Char) (k : Nat)
    (h1 : 1 ≤ k) (h2 : k ≤ 32) (h3 : k ≤ strlen kmer) :
    _hash c kmer k =
      .ok (uniqify_rc (((kmer.take k).map c.twobit_repr).foldl shiftOr 0)
              (((kmer.take k).reverse.map c.twobit_comp).foldl shiftOr 0),
           ((kmer.take k).map c.twobit_repr).foldl shiftOr 0,
           ((kmer.take k).reverse.map c.twobit_comp).foldl shiftOr 0) := by
  have hl := strlen_le_length kmer
  obtain ⟨n, rfl⟩ : ∃ n, k = n + 1 := ⟨k - 1, by omega⟩
  have c0 := charAt_of_lt kmer 0 (by omega)
  have ck := charAt_of_lt kmer n (by omega)
  have e1 : ((n + 1 : Nat) : Int) - 1 = (n : Int) := by push_cast; omega
  unfold _hash
  rw [if_neg (by simp [sizeof_HashIntoType]; omega)]
  rw [e1]
  simp only [Nat.cast_zero] at c0
  rw [c0, ck]
  simp only [bind, Except.bind]
  rw [Nat.add_sub_cancel,
    hash_loop_eq c kmer 0 n 1 _ _ _ (by omega) (by omega) (by push_cast; omega)]
  have t1 : kmer.take (n + 1) = kmer.getD 0 NUL :: (kmer.drop 1).take n := by
    simpa using drop_take_succ kmer 0 n (by omega)
  have t2 : kmer.take (n + 1) = kmer.take n ++ [kmer.getD n NUL] := by
    simpa using take_succ_drop kmer 0 n (by omega)
  have s0 : ∀ x, wrap (0 ||| x) = shiftOr 0 x := by intro x; simp [shiftOr, wrap]
  have eH : ((kmer.take (n + 1)).map c.twobit_repr).foldl shiftOr 0 =
      (((kmer.drop 1).take n).map c.twobit_repr).foldl shiftOr
        (wrap (0 ||| c.twobit_repr (kmer.getD 0 NUL))) := by
    rw [t1, s0]; simp
  have eR : ((kmer.take (n + 1)).reverse.map c.twobit_comp).foldl shiftOr 0 =
      (((kmer.drop 0).take n).reverse.map c.twobit_comp).foldl shiftOr
        (wrap (0 ||| c.twobit_comp (kmer.getD n NUL))) := by
    rw [t2, s0]; simp
  rw [eH, eR]

/-! ## Shifts without loss: the fold is Horner's rule -/

theorem shiftOr_eq (a x : Nat) (ha : a < 4 ^ 31) (hx : x < 4) :
    shiftOr a x = a * 4 + x := by
  have h4 : (4 : Nat) ^ 31 = 4611686018427387904 := by norm_num
  have e1 : a <<< 2 = 2 ^ 2 * a := by rw [Nat.shiftLeft_eq]; ring
  have e2 : 2 ^ 2 * a + x = 2 ^ 2 * a ||| x := Nat.mul_add_lt_is_or (by omega) a
  have w1 : wrap (2 ^ 2 * a) = 2 ^ 2 * a := by
    unfold wrap sizeof_HashIntoType
    exact Nat.mod_eq_of_lt (by norm_num; omega)
  unfold shiftOr
  rw [e1, w1, ← e2]
  unfold wrap sizeof_HashIntoType
  rw [Nat.mod_eq_of_lt (by norm_num; omega)]
  ring

theorem foldl_shiftOr_eq (codes : List Nat) :
    ∀ (a p : Nat), (∀ x ∈ codes, x < 4) → a < 4 ^ p → p + codes.length ≤ 32 →
      codes.foldl shiftOr a = codes.foldl (fun a x => a * 4 + x) a ∧
      codes.foldl (fun a x => a * 4 + x) a < 4 ^ (p + codes.length) := by
  induction codes with
  | nil => intro a p _ ha _; simpa using ha
  | cons x l ih =>
    intro a p hx ha hp
    have hx0 : x < 4 := hx x (by simp)
    have hl : ∀ y ∈ l, y < 4 := fun y hy => hx y (by simp [hy])
    simp only [List.length_cons] at hp
    have hle : (4 : Nat) ^ p ≤ 4 ^ 31 := Nat.pow_le_pow_right (by norm_num) (by omega)
    have hnext : a * 4 + x < 4 ^ (p + 1) := by rw [pow_succ]; omega
    obtain ⟨e, b⟩ := ih (a * 4 + x) (p + 1) hl hnext (by omega)
    simp only [List.foldl_cons, List.length_cons]
    rw [shiftOr_eq a x (by omega) hx0]
    refine ⟨e, ?_⟩
    have : p + (l.length + 1) = p + 1 + l.length := by omega
    rw [this]; exact b

theorem foldl_shiftOr_pack (codes : List Nat) (hx : ∀ x ∈ codes, x < 4)
    (hl : codes.length ≤ 32) : codes.foldl shiftOr 0 = packCodes codes :=
  (foldl_shiftOr_eq codes 0 0 hx (by norm_num) (by omega)).1

theorem packCodes_lt (codes : List Nat) (hx : ∀ x ∈ codes, x < 4)
    (hl : codes.length ≤ 32) : packCodes codes < 4 ^ codes.length := by
  have := (foldl_shiftOr_eq codes 0 0 hx (by norm_num) (by omega)).2
  simpa [packCodes] using this

theorem foldl_horner_sum (codes : List Nat) :
    ∀ a : Nat, codes.foldl (fun a x => a * 4 + x) a =
      a * 4 ^ codes.length +
        ∑ i in Finset.range codes.length, codes.getD i 0 * 4 ^ (codes.length - 1 - i) := by
  induction codes with
  | nil => intro a; simp
  | cons x l ih =>
    intro a
    simp only [List.foldl_cons, List.length_cons]
    rw [ih, Finset.sum_range_succ']
    have e : ∀ i, (x :: l).getD (i + 1) 0 * 4 ^ (l.length + 1 - 1 - (i + 1)) =
        l.getD i 0 * 4 ^ (l.length - 1 - i) := by
      intro i
      have : l.length + 1 - 1 - (i + 1) = l.length - 1 - i := by omega
      rw [this]; simp [List.getD]
    simp only [e]
    simp [List.getD]
    ring

theorem packCodes_sum (codes : List Nat) :
    packCodes codes =
      ∑ i in Finset.range codes.length, codes.getD i 0 * 4 ^ (codes.length - 1 - i) := by
  unfold packCodes
  rw [foldl_horner_sum]; simp

/-! ## The example codec satisfies the codec laws -/

theorem exampleCodec_twoBit : exampleCodec.TwoBit := by
  intro ch
  simp only [exampleCodec]
  split_ifs <;> omega

theorem exampleCodec_roundTrip : exampleCodec.RoundTrip := by
  intro ch h
  rcases h with h | h | h | h <;> subst h <;> decide

theorem exampleCodec_complementLaw : exampleCodec.ComplementLaw := by
  intro ch h
  rcases h with h | h | h | h <;> subst h <;> decide

/-! ## Forward value of the encoder -/

theorem map_take_getD (f : Char → Nat) (s : List Char) (k i : Nat)
    (hk : k ≤ s.length) (hi : i < k) :
    ((s.take k).map f).getD i 0 = f (s.getD i NUL) := by
  have h1 : i < s.length := by omega
  simp [List.getD, List.getElem?_take, hi, List.getElem?_eq_getElem h1]

theorem hash_forward_value (c : Codec) (s : List Char) (k : Nat) (hc : c.TwoBit)
    (h1 : 1 ≤ k) (h2 : k ≤ 32) (h3 : k ≤ strlen s) :
    ((s.take k).map c.twobit_repr).foldl shiftOr 0 =
      ∑ i in Finset.range k, c.twobit_repr (s.getD i NUL) * 4 ^ (k - 1 - i) := by
  have hl := strlen_le_length s
  have hlen : ((s.take k).map c.twobit_repr).length = k := by simp; omega
  rw [foldl_shiftOr_pack _ (by intro x hx; obtain ⟨a, _, rfl⟩ := List.mem_map.mp hx; exact hc a)
    (by omega), packCodes_sum, hlen]
  apply Finset.sum_congr rfl
  intro i hi
  rw [map_take_getD c.twobit_repr s k i (by omega) (Finset.mem_range.mp hi)]

/-! ## The string transform `_revcomp`: mirror of the first `ksize` characters -/

theorem size_to_int_of_lt (n : Nat) (h : n < 2 ^ 31) : size_to_int n = (n : Int) := by
  unfold size_to_int
  have e : n % 2 ^ 32 = n := Nat.mod_eq_of_lt (by norm_num at h ⊢; omega)
  rw [e, if_pos h]

theorem size_to_int_toNat_le (n : Nat) : (size_to_int n).toNat ≤ n := by
  unfold size_to_int
  have h1 : n % 2 ^ 32 ≤ n := Nat.mod_le _ _
  have h2 : n % 2 ^ 32 < 2 ^ 32 := Nat.mod_lt _ (by norm_num)
  split_ifs with h
  · simp only [Int.toNat_ofNat]; exact h1
  · have : ((n % 2 ^ 32 : Nat) : Int) - 2 ^ 32 ≤ 0 := by
      have : ((n % 2 ^ 32 : Nat) : Int) < 2 ^ 32 := by exact_mod_cast h2
      omega
    rw [Int.toNat_eq_zero.mpr this]
    exact Nat.zero_le _

theorem revcomp_loop_spec (kmer : List Char) (m : Nat) :
    ∀ (n i : Nat) (out : List Char), i + n = m → m ≤ out.length →
      (revcomp_loop kmer (m : Int) n i out).length = out.length ∧
      ∀ p, p < out.length → (revcomp_loop kmer (m : Int) n i out).getD p NUL =
        if p < n then complement (kmer.getD (m - 1 - p) NUL) else out.getD p NUL := by
  intro n
  induction n with
  | zero => intro i out _ ho; simp [revcomp_loop]
  | succ n ih =>
    intro i out hi ho
    rw [revcomp_loop]
    have e1 : ((m : Int) - (i : Int) - 1).toNat = n := by omega
    rw [e1]
    obtain ⟨l1, l2⟩ := ih (i + 1) (out.set n (complement (kmer.getD i NUL)))
      (by omega) (by simp; exact ho)
    rw [List.length_set] at l1 l2
    refine ⟨l1, ?_⟩
    intro p hp
    rw [l2 p hp]
    by_cases h1 : p < n
    · simp [h1, show p < n + 1 by omega]
    · by_cases h2 : p = n
      · subst h2
        have e2 : m - 1 - p = i := by omega
        simp [e2, List.getD, List.getElem?_set, hp]
      · have h3 : ¬ p < n + 1 := by omega
        have h4 : n ≠ p := fun h => h2 h.symm
        simp [h1, h3, List.getD, List.getElem?_set, h4]

theorem revcomp_getD (s : List Char) (p : Nat) (hp : p < s.length) :
    (_revcomp s).length = s.length ∧
    (_revcomp s).getD p NUL =
      if p < (size_to_int s.length).toNat
      then complement (s.getD ((size_to_int s.length).toNat - 1 - p) NUL)
      else s.getD p NUL := by
  have hle := size_to_int_toNat_le s.length
  unfold _revcomp
  simp only []
  by_cases hk : 0 ≤ size_to_int s.length
  · have e : size_to_int s.length = (((size_to_int s.length).toNat : Nat) : Int) :=
      (Int.toNat_of_nonneg hk).symm
    obtain ⟨l1, l2⟩ := revcomp_loop_spec s (size_to_int s.length).toNat
      (size_to_int s.length).toNat 0 s (by omega) hle
    rw [← e] at l1 l2
    exact ⟨l1, l2 p hp⟩
  · have e0 : (size_to_int s.length).toNat = 0 := Int.toNat_eq_zero.mpr (by omega)
    rw [e0]
    simp [revcomp_loop]

theorem length_revcomp (s : List Char) : (_revcomp s).length = s.length := by
  cases s with
  | nil => rfl
  | cons x l => exact (revcomp_getD (x :: l) 0 (by simp)).1

theorem revcomp_eq_append (s : List Char) :
    _revcomp s = ((s.take (size_to_int s.length).toNat).map complement).reverse ++
      s.drop (size_to_int s.length).toNat := by
  have hle := size_to_int_toNat_le s.length
  generalize hm : (size_to_int s.length).toNat = m at hle
  apply List.ext_getElem
  · rw [length_revcomp]; simp; omega
  · intro p h1 h2
    rw [length_revcomp] at h1
    have h := (revcomp_getD s p h1).2
    rw [hm] at h
    have e : (_revcomp s)[p] = (_revcomp s).getD p NUL := by
      simp [List.getD, List.getElem?_eq_getElem (show p < (_revcomp s).length by
        rw [length_revcomp]; exact h1)]
    rw [e, h]
    by_cases hp : p < m
    · rw [if_pos hp, List.getElem_append_left (by simp; omega), List.getElem_reverse]
      have h5 : m - 1 - p < s.length := by omega
      have hmin : min m s.length = m := by omega
      simp [List.getD, List.getElem?_eq_getElem h5, hmin]
    · rw [if_neg hp, List.getElem_append_right (by simp; omega)]
      have hmin : min m s.length = m := by omega
      have hidx : m + (p - m) = p := by omega
      simp [List.getD, List.getElem?_eq_getElem h1, hmin, hidx]

theorem revcomp_eq (s : List Char) (h : s.length < 2 ^ 31) :
    _revcomp s = (s.map complement).reverse := by
  rw [revcomp_eq_append, size_to_int_of_lt _ h]
  simp

theorem complement_complement (ch : Char) : complement (complement ch) = ch := by
  unfold complement
  split_ifs <;> simp_all

theorem revcomp_revcomp (s : List Char) : _revcomp (_revcomp s) = s := by
  have hle := size_to_int_toNat_le s.length
  rw [revcomp_eq_append (_revcomp s), length_revcomp, revcomp_eq_append s]
  generalize (size_to_int s.length).toNat = m at hle
  have hl : (((s.take m).map complement).reverse).length = m := by simp; omega
  rw [List.take_append_of_le_length (by omega), List.take_of_length_le (by omega),
    List.drop_append_of_le_length (by omega), List.drop_of_length_le (by omega)]
  simp only [List.map_reverse, List.reverse_reverse, List.map_map, List.nil_append]
  have : List.map (complement ∘ complement) (s.take m) = s.take m := by
    conv_rhs => rw [← List.map_id (s.take m)]
    apply List.map_congr_left
    intro a _
    exact complement_complement a
  rw [this, List.take_append_drop]

theorem revcomp_of_int_nonpos (s : List Char) (h : size_to_int s.length ≤ 0) :
    _revcomp s = s := by
  rw [revcomp_eq_append, Int.toNat_eq_zero.mpr h]
  simp

theorem size_to_int_two_pow_31 : size_to_int (2 ^ 31) = -(2 ^ 31) := by
  decide

theorem getD_replicate_A (n i : Nat) (h : i < n) :
    (List.replicate n 'A').getD i NUL = 'A' := by
  simp [List.getD, List.getElem?_replicate, h]

theorem complement_table :
    complement 'A' = 'T' ∧ complement 'C' = 'G' ∧ complement 'G' = 'C' ∧
      complement 'T' = 'A' ∧ (∀ ch, ¬ isNucleotide ch → complement ch = ch) := by
  refine ⟨by decide, by decide, by decide, by decide, ?_⟩
  intro ch h
  unfold isNucleotide at h
  unfold complement
  split_ifs <;> simp_all

theorem revcomp_mirror_of_int_length (s : List Char) (hlen : s.length < 2 ^ 31) :
    (_revcomp s).length = s.length ∧
      ∀ i, i < s.length →
        (_revcomp s).getD (s.length - 1 - i) NUL = complement (s.getD i NUL) := by
  refine ⟨length_revcomp s, ?_⟩
  intro i hi
  have h := (revcomp_getD s (s.length - 1 - i) (by omega)).2
  rw [size_to_int_of_lt _ hlen, Int.toNat_ofNat, if_pos (by omega)] at h
  have e : s.length - 1 - (s.length - 1 - i) = i := by omega
  rw [e] at h
  exact h

theorem lt_two_pow_31_of_le_32 (n : Nat) (h : n ≤ 32) : n < 2 ^ 31 := by
  norm_num; omega

/-! ## The decoder as a digit expansion -/

theorem and_three (v : Nat) : v &&& 3 = v % 4 := by
  have := Nat.and_pow_two_sub_one_eq_mod v 2
  simpa using this

theorem shiftRight_two (v : Nat) : v >>> 2 = v / 4 := by
  rw [Nat.shiftRight_eq_div_pow]

theorem revhash_loop_eq (c : Codec) :
    ∀ (n hash : Nat) (s : List Char),
      revhash_loop c n hash s = s ++ (digitsLSB n (hash / 4)).map c.revtwobit_repr := by
  intro n
  induction n with
  | zero => intro hash s; simp [revhash_loop, digitsLSB]
  | succ n ih =>
    intro hash s
    simp only [revhash_loop, digitsLSB]
    rw [ih, and_three, shiftRight_two]
    simp

theorem revhash_eq (c : Codec) (v k : Nat) :
    _revhash c v k = ((digitsLSB (k - 1 + 1) v).map c.revtwobit_repr).reverse := by
  simp only [_revhash, revhash_loop_eq, digitsLSB, and_three]
  simp

theorem length_digitsLSB : ∀ (n v : Nat), (digitsLSB n v).length = n := by
  intro n
  induction n with
  | zero => intro v; rfl
  | succ n ih => intro v; simp [digitsLSB, ih]

theorem digitsLSB_lt : ∀ (n v x : Nat), x ∈ digitsLSB n v → x < 4 := by
  intro n
  induction n with
  | zero => intro v x h; simp [digitsLSB] at h
  | succ n ih =>
    intro v x h
    simp only [digitsLSB, List.mem_cons] at h
    rcases h with h | h
    · omega
    · exact ih _ _ h

theorem packCodes_eq_packRev (codes : List Nat) : packCodes codes = packRev codes.reverse := by
  unfold packCodes packRev
  rw [List.foldr_reverse]

theorem digitsLSB_packRev (l : List Nat) (hx : ∀ x ∈ l, x < 4) :
    digitsLSB l.length (packRev l) = l := by
  induction l with
  | nil => rfl
  | cons x l ih =>
    have hx0 : x < 4 := hx x (by simp)
    have hl : ∀ y ∈ l, y < 4 := fun y hy => hx y (by simp [hy])
    have e : packRev (x :: l) = packRev l * 4 + x := rfl
    simp only [List.length_cons, digitsLSB, e]
    have e1 : (packRev l * 4 + x) % 4 = x := by omega
    have e2 : (packRev l * 4 + x) / 4 = packRev l := by omega
    rw [e1, e2, ih hl]

theorem packRev_digitsLSB : ∀ (n v : Nat), packRev (digitsLSB n v) = v % 4 ^ n := by
  intro n
  induction n with
  | zero => intro v; simp [digitsLSB, packRev, Nat.mod_one]
  | succ n ih =>
    intro v
    have e : packRev (digitsLSB (n + 1) v) = packRev (digitsLSB n (v / 4)) * 4 + v % 4 := rfl
    rw [e, ih, Nat.pow_succ, Nat.mul_comm (4 ^ n) 4, Nat.mod_mul]
    ring

theorem codec_onto (c : Codec) (hc : c.TwoBit) (hr : c.RoundTrip) (n : Nat) (hn : n < 4) :
    isNucleotide (c.revtwobit_repr n) ∧ c.twobit_repr (c.revtwobit_repr n) = n := by
  have hA := hr 'A' (Or.inl rfl)
  have hC := hr 'C' (Or.inr (Or.inl rfl))
  have hG := hr 'G' (Or.inr (Or.inr (Or.inl rfl)))
  have hT := hr 'T' (Or.inr (Or.inr (Or.inr rfl)))
  have bA := hc 'A'
  have bC := hc 'C'
  have bG := hc 'G'
  have bT := hc 'T'
  have d1 : c.twobit_repr 'A' ≠ c.twobit_repr 'C' := by
    intro h; rw [h, hC] at hA; exact absurd hA (by decide)
  have d2 : c.twobit_repr 'A' ≠ c.twobit_repr 'G' := by
    intro h; rw [h, hG] at hA; exact absurd hA (by decide)
  have d3 : c.twobit_repr 'A' ≠ c.twobit_repr 'T' := by
    intro h; rw [h, hT] at hA; exact absurd hA (by decide)
  have d4 : c.twobit_repr 'C' ≠ c.twobit_repr 'G' := by
    intro h; rw [h, hG] at hC; exact absurd hC (by decide)
  have d5 : c.twobit_repr 'C' ≠ c.twobit_repr 'T' := by
    intro h; rw [h, hT] at hC; exact absurd hC (by decide)
  have d6 : c.twobit_repr 'G' ≠ c.twobit_repr 'T' := by
    intro h; rw [h, hT] at hG; exact absurd hG (by decide)
  have hn4 : n = c.twobit_repr 'A' ∨ n = c.twobit_repr 'C' ∨ n = c.twobit_repr 'G' ∨
      n = c.twobit_repr 'T' := by omega
  rcases hn4 with h | h | h | h <;> subst h
  · rw [hA]; exact ⟨Or.inl rfl, rfl⟩
  · rw [hC]; exact ⟨Or.inr (Or.inl rfl), rfl⟩
  · rw [hG]; exact ⟨Or.inr (Or.inr (Or.inl rfl)), rfl⟩
  · rw [hT]; exact ⟨Or.inr (Or.inr (Or.inr rfl)), rfl⟩

/-! ## k-mers over the four symbols -/

theorem strlen_of_nucleotides (s : List Char) (hs : ∀ ch ∈ s, isNucleotide ch) :
    strlen s = s.length := by
  unfold strlen
  have : s.takeWhile (fun ch => ch != NUL) = s := by
    rw [List.takeWhile_eq_self_iff]
    intro ch hch
    rcases hs ch hch with h | h | h | h <;> subst h <;> decide
  rw [this]

theorem isNucleotide_complement (ch : Char) (h : isNucleotide ch) :
    isNucleotide (complement ch) := by
  rcases h with h | h | h | h <;> subst h <;> decide

theorem revcomp_nucleotides (s : List Char) (hs : ∀ ch ∈ s, isNucleotide ch) :
    ∀ ch ∈ _revcomp s, isNucleotide ch := by
  intro ch hch
  rw [revcomp_eq_append, List.mem_append, List.mem_reverse] at hch
  rcases hch with h | h
  · obtain ⟨a, ha, rfl⟩ := List.mem_map.mp h
    exact isNucleotide_complement a (hs a (List.mem_of_mem_take ha))
  · exact hs ch (List.mem_of_mem_drop h)

theorem hash_of_kmer (c : Codec) (s : List Char) (k : Nat)
    (h1 : 1 ≤ k) (h2 : k ≤ 32) (hl : s.length = k) (hs : ∀ ch ∈ s, isNucleotide ch) :
    _hash c s k =
      .ok (uniqify_rc ((s.map c.twobit_repr).foldl shiftOr 0)
              ((s.reverse.map c.twobit_comp).foldl shiftOr 0),
           (s.map c.twobit_repr).foldl shiftOr 0,
           (s.reverse.map c.twobit_comp).foldl shiftOr 0) := by
  have e := hash_eq_fold c s k h1 h2 (by rw [strlen_of_nucleotides s hs]; omega)
  rw [List.take_of_length_le (by omega)] at e
  exact e

theorem codes_revcomp (c : Codec) (hcl : c.ComplementLaw) (s : List Char)
    (hs : ∀ ch ∈ s, isNucleotide ch) (hlen : s.length < 2 ^ 31) :
    (_revcomp s).map c.twobit_repr = s.reverse.map c.twobit_comp := by
  rw [revcomp_eq s hlen, List.map_reverse, List.map_reverse, List.map_map]
  congr 1
  apply List.map_congr_left
  intro a ha
  exact (hcl a (hs a ha)).symm

theorem comp_codes_revcomp (c : Codec) (hcl : c.ComplementLaw) (s : List Char)
    (hs : ∀ ch ∈ s, isNucleotide ch) (hlen : s.length < 2 ^ 31) :
    (_revcomp s).reverse.map c.twobit_comp = s.map c.twobit_repr := by
  rw [revcomp_eq s hlen, List.reverse_reverse, List.map_map]
  apply List.map_congr_left
  intro a ha
  simp only [Function.comp]
  rw [hcl _ (isNucleotide_complement a (hs a ha)), complement_complement]

theorem hash_of_revcomp (c : Codec) (hcl : c.ComplementLaw) (s : List Char) (k : Nat)
    (h1 : 1 ≤ k) (h2 : k ≤ 32) (hl : s.length = k) (hs : ∀ ch ∈ s, isNucleotide ch) :
    _hash c (_revcomp s) k =
      .ok (uniqify_rc ((s.reverse.map c.twobit_comp).foldl shiftOr 0)
              ((s.map c.twobit_repr).foldl shiftOr 0),
           (s.reverse.map c.twobit_comp).foldl shiftOr 0,
           (s.map c.twobit_repr).foldl shiftOr 0) := by
  rw [hash_of_kmer c (_revcomp s) k h1 h2 (by rw [length_revcomp]; exact hl)
    (revcomp_nucleotides s hs),
    codes_revcomp c hcl s hs (lt_two_pow_31_of_le_32 _ (by omega)),
    comp_codes_revcomp c hcl s hs (lt_two_pow_31_of_le_32 _ (by omega))]

theorem revhash_of_packed (c : Codec) (hc : c.TwoBit) (hr : c.RoundTrip) (s : List Char)
    (h1 : 1 ≤ s.length) (h2 : s.length ≤ 32) (hs : ∀ ch ∈ s, isNucleotide ch) :
    _revhash c ((s.map c.twobit_repr).foldl shiftOr 0) s.length = s := by
  have hx : ∀ x ∈ s.map c.twobit_repr, x < 4 := by
    intro x hx; obtain ⟨a, _, rfl⟩ := List.mem_map.mp hx; exact hc a
  have hx2 : ∀ x ∈ (s.map c.twobit_repr).reverse, x < 4 := by
    intro x h; exact hx x (List.mem_reverse.mp h)
  rw [foldl_shiftOr_pack _ hx (by simpa using h2), packCodes_eq_packRev, revhash_eq]
  have e : s.length - 1 + 1 = ((s.map c.twobit_repr).reverse).length := by simp; omega
  rw [e, digitsLSB_packRev _ hx2, List.map_reverse, List.reverse_reverse, List.map_map]
  conv_rhs => rw [← List.map_id s]
  apply List.map_congr_left
  intro a ha
  exact hr a (hs a ha)

/-! ## Decoded values and the length check -/

theorem revhash_nucleotides (c : Codec) (hc : c.TwoBit) (hr : c.RoundTrip) (v k : Nat) :
    ∀ ch ∈ _revhash c v k, isNucleotide ch := by
  intro ch hch
  rw [revhash_eq, List.mem_reverse] at hch
  obtain ⟨x, hx, rfl⟩ := List.mem_map.mp hch
  exact (codec_onto c hc hr x (digitsLSB_lt _ _ x hx)).1

theorem length_revhash (c : Codec) (v k : Nat) : (_revhash c v k).length = k - 1 + 1 := by
  rw [revhash_eq]; simp [length_digitsLSB]

theorem codes_revhash (c : Codec) (hc : c.TwoBit) (hr : c.RoundTrip) (v k : Nat) :
    (_revhash c v k).map c.twobit_repr = (digitsLSB (k - 1 + 1) v).reverse := by
  rw [revhash_eq, List.map_reverse, List.map_map]
  congr 1
  conv_rhs => rw [← List.map_id (digitsLSB (k - 1 + 1) v)]
  apply List.map_congr_left
  intro x hx
  exact (codec_onto c hc hr x (digitsLSB_lt _ _ x hx)).2

theorem hash_zero (c : Codec) (s : List Char) : _hash c s 0 = .error .out_of_bounds := by
  unfold _hash
  rw [if_neg (by simp)]
  have c0 : ∃ ch, charAt s 0 = .ok ch := by
    cases s with
    | nil => exact ⟨NUL, by simp [charAt]⟩
    | cons x l => exact ⟨x, by simp [charAt]⟩
  obtain ⟨ch, hch⟩ := c0
  have c1 : charAt s (((0 : Nat) : Int) - 1) = .error .out_of_bounds := by
    simp [charAt]
  rw [hch, c1]
  rfl

/-! ## The mixing backend on k-mers -/

theorem toWordLength_of_le (bits n : Nat) (hb : 6 ≤ bits) (hn : n ≤ 32) :
    toWordLength bits n = n := by
  unfold toWordLength
  have h : (2 : Nat) ^ 6 ≤ 2 ^ bits := Nat.pow_le_pow_right (by norm_num) hb
  exact Nat.mod_eq_of_lt (by norm_num at h; omega)

theorem hash_murmur_of_kmer (bits : Nat) (c : Codec) (mix : Nat → Nat) (s : List Char)
    (hb : 6 ≤ bits) (h1 : 1 ≤ s.length) (h2 : s.length ≤ 32)
    (hs : ∀ ch ∈ s, isNucleotide ch) :
    _hash_murmur bits c mix s =
      .ok (wrap (mix ((s.map c.twobit_repr).foldl shiftOr 0)) ^^^
             wrap (mix ((s.reverse.map c.twobit_comp).foldl shiftOr 0)),
           wrap (mix ((s.map c.twobit_repr).foldl shiftOr 0)),
           wrap (mix ((s.reverse.map c.twobit_comp).foldl shiftOr 0))) := by
  unfold _hash_murmur
  rw [toWordLength_of_le bits s.length hb h2, hash_of_kmer c s s.length h1 h2 rfl hs]
  rfl

theorem hash_murmur_of_revcomp (bits : Nat) (c : Codec) (mix : Nat → Nat) (s : List Char)
    (hcl : c.ComplementLaw) (hb : 6 ≤ bits) (h1 : 1 ≤ s.length) (h2 : s.length ≤ 32)
    (hs : ∀ ch ∈ s, isNucleotide ch) :
    _hash_murmur bits c mix (_revcomp s) =
      .ok (wrap (mix ((s.reverse.map c.twobit_comp).foldl shiftOr 0)) ^^^
             wrap (mix ((s.map c.twobit_repr).foldl shiftOr 0)),
           wrap (mix ((s.reverse.map c.twobit_comp).foldl shiftOr 0)),
           wrap (mix ((s.map c.twobit_repr).foldl shiftOr 0))) := by
  rw [hash_murmur_of_kmer bits c mix (_revcomp s) hb (by rw [length_revcomp]; exact h1)
    (by rw [length_revcomp]; exact h2) (revcomp_nucleotides s hs),
    codes_revcomp c hcl s hs (lt_two_pow_31_of_le_32 _ h2),
    comp_codes_revcomp c hcl s hs (lt_two_pow_31_of_le_32 _ h2)]

theorem strlen_replicate_A (n : Nat) : strlen (List.replicate n 'A') = n := by
  rw [strlen_of_nucleotides _ (by
    intro ch hch
    rw [List.eq_of_mem_replicate hch]
    exact Or.inl rfl)]
  simp

/-! ## The digest fold and positions of the decoder -/

theorem or_eq_add_of_dvd (m a b : Nat) (ha : 2 ^ m ∣ a) (hb : b < 2 ^ m) :
    a ||| b = a + b := by
  obtain ⟨q, rfl⟩ := ha
  exact (Nat.mul_add_lt_is_or hb q).symm

theorem wrap_of_lt (n : Nat) (h : n < 2 ^ 64) : wrap n = n := by
  unfold wrap sizeof_HashIntoType
  exact Nat.mod_eq_of_lt h

theorem sha1_step (m h b : Nat) (hm : m + 8 ≤ 64) (hd : 2 ^ (m + 8) ∣ h) (hh : h < 2 ^ 64)
    (hb : b < 256) :
    wrap (h ||| wrap (b <<< m)) = h + b * 2 ^ m ∧ 2 ^ m ∣ h + b * 2 ^ m ∧
      h + b * 2 ^ m < 2 ^ 64 := by
  have hp : (0 : Nat) < 2 ^ m := Nat.two_pow_pos m
  have e8 : (2 : Nat) ^ (m + 8) = 2 ^ m * 256 := by rw [pow_add]; norm_num
  have hlt : b * 2 ^ m < 2 ^ (m + 8) := by
    have : b * 2 ^ m < 256 * 2 ^ m := Nat.mul_lt_mul_of_pos_right hb hp
    rw [e8]; omega
  have h64 : (2 : Nat) ^ 64 = 2 ^ (m + 8) * 2 ^ (56 - m) := by
    rw [← pow_add]; congr 1; omega
  have hsum : h + b * 2 ^ m < 2 ^ 64 := by
    obtain ⟨q, rfl⟩ := hd
    rw [h64] at hh ⊢
    have hq : q < 2 ^ (56 - m) := Nat.lt_of_mul_lt_mul_left hh
    calc 2 ^ (m + 8) * q + b * 2 ^ m < 2 ^ (m + 8) * q + 2 ^ (m + 8) := by omega
      _ = 2 ^ (m + 8) * (q + 1) := by ring
      _ ≤ 2 ^ (m + 8) * 2 ^ (56 - m) := Nat.mul_le_mul_left _ hq
  have hle : (2 : Nat) ^ (m + 8) ≤ 2 ^ 64 := Nat.pow_le_pow_right (by norm_num) hm
  have w1 : wrap (b * 2 ^ m) = b * 2 ^ m := wrap_of_lt _ (by omega)
  rw [Nat.shiftLeft_eq, w1, or_eq_add_of_dvd (m + 8) h _ hd hlt, wrap_of_lt _ hsum]
  refine ⟨rfl, ?_, hsum⟩
  have d1 : 2 ^ m ∣ h := Dvd.dvd.trans ⟨256, e8⟩ hd
  exact Dvd.dvd.add d1 ⟨b, Nat.mul_comm _ _⟩

theorem sha1_fold_eq (d : Nat → Nat) (hd : ∀ j, d j < 256) :
    ∀ (n i h : Nat), i + n = 8 → 2 ^ (8 * (8 - i)) ∣ h → h < 2 ^ 64 →
      sha1_fold d n i h = h + ∑ j in Finset.range n, d (i + j) * 256 ^ (7 - (i + j)) := by
  intro n
  induction n with
  | zero => intro i h _ _ _; simp [sha1_fold]
  | succ n ih =>
    intro i h hi hdv hh
    have e1 : 8 * (8 - i) = (7 - i) * 8 + 8 := by omega
    rw [e1] at hdv
    obtain ⟨s1, s2, s3⟩ := sha1_step ((7 - i) * 8) h (d i) (by omega) hdv hh (hd i)
    have e2 : 8 * (8 - (i + 1)) = (7 - i) * 8 := by omega
    simp only [sha1_fold]
    rw [s1, ih (i + 1) _ (by omega) (by rw [e2]; exact s2) s3, Finset.sum_range_succ']
    have e3 : (256 : Nat) ^ (7 - (i + 0)) = 2 ^ ((7 - i) * 8) := by
      rw [Nat.add_zero, Nat.mul_comm, pow_mul]; norm_num
    have e4 : ∀ j, d (i + 1 + j) * 256 ^ (7 - (i + 1 + j)) =
        d (i + (j + 1)) * 256 ^ (7 - (i + (j + 1))) := by
      intro j
      have : i + 1 + j = i + (j + 1) := by omega
      rw [this]
    simp only [e4]
    rw [e3, Nat.add_zero]
    ring

theorem sha1_fold_sum (d : Nat → Nat) (hd : ∀ j, d j < 256) :
    sha1_fold d 8 0 0 = ∑ i in Finset.range 8, d i * 256 ^ (7 - i) := by
  rw [sha1_fold_eq d hd 8 0 0 rfl (by simp) (by norm_num)]
  simp

theorem digitsLSB_getD : ∀ (n v i : Nat), i < n →
    (digitsLSB n v).getD i 0 = (v / 4 ^ i) % 4 := by
  intro n
  induction n with
  | zero => intro v i h; omega
  | succ n ih =>
    intro v i h
    cases i with
    | zero => simp [digitsLSB, List.getD]
    | succ i =>
      have := ih (v / 4) i (by omega)
      simp only [digitsLSB]
      rw [List.getD_cons_succ, this, Nat.div_div_eq_div_mul, pow_succ, Nat.mul_comm]

theorem digestByte_lt (sha1 : List Char → Nat → Nat) (s : List Char) (j : Nat) :
    digestByte sha1 s j < 256 := by
  unfold digestByte
  exact Nat.mod_lt _ (by norm_num)

theorem hash_sha1_eq (sha1 : List Char → Nat → Nat) (s : List Char) :
    _hash_sha1 sha1 s =
      ((∑ i in Finset.range 8, digestByte sha1 s i * 256 ^ (7 - i)) ^^^
          (∑ i in Finset.range 8, digestByte sha1 (_revcomp s) i * 256 ^ (7 - i)),
        ∑ i in Finset.range 8, digestByte sha1 s i * 256 ^ (7 - i),
        ∑ i in Finset.range 8, digestByte sha1 (_revcomp s) i * 256 ^ (7 - i)) := by
  unfold _hash_sha1
  simp only []
  rw [sha1_fold_sum _ (digestByte_lt sha1 s), sha1_fold_sum _ (digestByte_lt sha1 (_revcomp s))]

theorem digitsLSB_mod (n v : Nat) : digitsLSB n v = digitsLSB n (v % 4 ^ n) := by
  have h := digitsLSB_packRev (digitsLSB n v) (digitsLSB_lt n v)
  rw [length_digitsLSB, packRev_digitsLSB] at h
  exact h.symm

theorem revhash_getD (c : Codec) (v k i : Nat) (h1 : 1 ≤ k) (hi : i < k) :
    (_revhash c v k).getD (k - 1 - i) NUL = c.revtwobit_repr ((v >>> (2 * i)) &&& 3) := by
  have ek : k - 1 + 1 = k := by omega
  have hlen : i < ((digitsLSB k v).map c.revtwobit_repr).length := by
    simpa [length_digitsLSB] using hi
  have hd := digitsLSB_getD k v i hi
  have hi2 : i < (digitsLSB k v).length := by rw [length_digitsLSB]; exact hi
  rw [List.getD_eq_getElem _ _ hi2] at hd
  have hidx : k - 1 - i < ((digitsLSB k v).map c.revtwobit_repr).reverse.length := by
    simp [length_digitsLSB]; omega
  rw [revhash_eq, ek, List.getD_eq_getElem _ _ hidx, List.getElem_reverse]
  simp only [List.getElem_map, List.length_map, length_digitsLSB]
  have e : k - 1 - (k - 1 - i) = i := by omega
  simp only [e, hd]
  rw [and_three, Nat.shiftRight_eq_div_pow, pow_mul]
  norm_num

theorem revhash_reencodes_mod (c : Codec) (v k : Nat) (hc : c.TwoBit) (hr : c.RoundTrip)
    (h1 : 1 ≤ k) (h2 : k ≤ 32) :
    _hash_forward c (_revhash c v k) k = .ok (v % 4 ^ k) := by
  have ek : k - 1 + 1 = k := by omega
  have hlen : (_revhash c v k).length = k := by rw [length_revhash, ek]
  have hn := revhash_nucleotides c hc hr v k
  unfold _hash_forward
  rw [hash_of_kmer c _ k h1 h2 hlen hn, codes_revhash c hc hr v k, ek]
  have hx : ∀ x ∈ (digitsLSB k v).reverse, x < 4 := by
    intro x h; exact digitsLSB_lt k v x (List.mem_reverse.mp h)
  rw [foldl_shiftOr_pack _ hx (by simp [length_digitsLSB]; omega), packCodes_eq_packRev,
    List.reverse_reverse, packRev_digitsLSB]
  rfl

/-! ## Settled claims -/

/-- C1: for `1 ≤ k ≤ 32` and a string of length at least `k`, with a codec
whose codes are 2-bit values, the call `_hash(s, k, h, r)` succeeds and the
forward value `h` (also what `_hash_forward(s, k)` returns) is the MSB-first
packing `Σ_{i<k} code(s[i]) * 4^(k-1-i)` of the first `k` symbols; the value is
the full sum, so the shifts lose nothing. -/
theorem hash_forward_packs_msb_first (c : Codec) (s : List Char) (k : Nat)
    (hc : c.TwoBit) (h1 : 1 ≤ k) (h2 : k ≤ 32) (h3 : k ≤ strlen s) :
    (∃ ret r, _hash c s k =
        .ok (ret, ∑ i in Finset.range k, c.twobit_repr (s.getD i NUL) * 4 ^ (k - 1 - i), r)) ∧
      _hash_forward c s k =
        .ok (∑ i in Finset.range k, c.twobit_repr (s.getD i NUL) * 4 ^ (k - 1 - i)) := by
  have e := hash_eq_fold c s k h1 h2 h3
  rw [hash_forward_value c s k hc h1 h2 h3] at e
  refine ⟨⟨_, _, e⟩, ?_⟩
  unfold _hash_forward
  rw [e]; rfl

/-- Witness of C1 on `"ACG"`, `k = 3`, with the example codec. -/
theorem hash_forward_packs_msb_first_witness :
    (∃ ret r, _hash exampleCodec ['A', 'C', 'G'] 3 =
        .ok (ret, ∑ i in Finset.range 3,
          exampleCodec.twobit_repr (['A', 'C', 'G'].getD i NUL) * 4 ^ (3 - 1 - i), r)) ∧
      _hash_forward exampleCodec ['A', 'C', 'G'] 3 =
        .ok (∑ i in Finset.range 3,
          exampleCodec.twobit_repr (['A', 'C', 'G'].getD i NUL) * 4 ^ (3 - 1 - i)) :=
  hash_forward_packs_msb_first exampleCodec ['A', 'C', 'G'] 3 exampleCodec_twoBit
    (by decide) (by decide) (by decide)

/-- C2: round trip. For `1 ≤ k ≤ 32` and a k-mer `s` of length `k` over
`A, C, G, T`, with a 2-bit codec satisfying `decode(code(x)) = x`, the call
`_hash_forward(s, k)` returns a value and `_revhash` of that value is `s`. -/
theorem revhash_hash_forward_round_trip (c : Codec) (s : List Char) (k : Nat)
    (hc : c.TwoBit) (hr : c.RoundTrip) (h1 : 1 ≤ k) (h2 : k ≤ 32) (hl : s.length = k)
    (hs : ∀ ch ∈ s, isNucleotide ch) :
    ∃ h, _hash_forward c s k = .ok h ∧ _revhash c h k = s := by
  refine ⟨(s.map c.twobit_repr).foldl shiftOr 0, ?_, ?_⟩
  · unfold _hash_forward
    rw [hash_of_kmer c s k h1 h2 hl hs]; rfl
  · subst hl
    exact revhash_of_packed c hc hr s h1 h2 hs

/-- Witness of C2 on `"ACG"`, `k = 3`, with the example codec. -/
theorem revhash_hash_forward_round_trip_witness :
    ∃ h, _hash_forward exampleCodec ['A', 'C', 'G'] 3 = .ok h ∧
      _revhash exampleCodec h 3 = ['A', 'C', 'G'] :=
  revhash_hash_forward_round_trip exampleCodec ['A', 'C', 'G'] 3 exampleCodec_twoBit
    exampleCodec_roundTrip (by decide) (by decide) (by decide) (by decide)

/-- C3: strand symmetry of the packed canonical hash. For `1 ≤ k ≤ 32` and a
k-mer `s` of length `k` over `A, C, G, T`, with a codec satisfying
`complementCode(x) = code(complement(x))`, the two-argument `_hash` returns the
same value on `s` and on `_revcomp(s)`. -/
theorem hash_strand_symmetric (c : Codec) (s : List Char) (k : Nat)
    (hcl : c.ComplementLaw) (h1 : 1 ≤ k) (h2 : k ≤ 32) (hl : s.length = k)
    (hs : ∀ ch ∈ s, isNucleotide ch) :
    ∃ v, _hash_kmer c s k = .ok v ∧ _hash_kmer c (_revcomp s) k = .ok v := by
  refine ⟨uniqify_rc ((s.map c.twobit_repr).foldl shiftOr 0)
    ((s.reverse.map c.twobit_comp).foldl shiftOr 0), ?_, ?_⟩
  · unfold _hash_kmer
    rw [hash_of_kmer c s k h1 h2 hl hs]; rfl
  · unfold _hash_kmer
    rw [hash_of_revcomp c hcl s k h1 h2 hl hs]
    simp only [uniqify_rc, Except.map]
    rw [max_comm]

/-- Witness of C3 on `"ACG"`, `k = 3`, with the example codec. -/
theorem hash_strand_symmetric_witness :
    ∃ v, _hash_kmer exampleCodec ['A', 'C', 'G'] 3 = .ok v ∧
      _hash_kmer exampleCodec (_revcomp ['A', 'C', 'G']) 3 = .ok v :=
  hash_strand_symmetric exampleCodec ['A', 'C', 'G'] 3 exampleCodec_complementLaw
    (by decide) (by decide) (by decide) (by decide)

/-- C4: the canonical packed hash is the maximum of the two orientations. For
`1 ≤ k ≤ 32` and a k-mer `s` of length `k` over `A, C, G, T`, the pair `(h, r)`
written by `_hash(s, k, h, r)` is `(_hash_forward(s, k),
_hash_forward(_revcomp(s), k))` and the returned value, also the value of the
two-argument `_hash`, is `max(h, r)`. -/
theorem hash_is_max_of_orientations (c : Codec) (s : List Char) (k : Nat)
    (hcl : c.ComplementLaw) (h1 : 1 ≤ k) (h2 : k ≤ 32) (hl : s.length = k)
    (hs : ∀ ch ∈ s, isNucleotide ch) :
    ∃ h r, _hash c s k = .ok (max h r, h, r) ∧ _hash_kmer c s k = .ok (max h r) ∧
      _hash_forward c s k = .ok h ∧ _hash_forward c (_revcomp s) k = .ok r := by
  refine ⟨(s.map c.twobit_repr).foldl shiftOr 0,
    (s.reverse.map c.twobit_comp).foldl shiftOr 0, ?_, ?_, ?_, ?_⟩
  · rw [hash_of_kmer c s k h1 h2 hl hs]; rfl
  · unfold _hash_kmer
    rw [hash_of_kmer c s k h1 h2 hl hs]; rfl
  · unfold _hash_forward
    rw [hash_of_kmer c s k h1 h2 hl hs]; rfl
  · unfold _hash_forward
    rw [hash_of_revcomp c hcl s k h1 h2 hl hs]; rfl

/-- Witness of C4 on `"ACG"`, `k = 3`, with the example codec. -/
theorem hash_is_max_of_orientations_witness :
    ∃ h r, _hash exampleCodec ['A', 'C', 'G'] 3 = .ok (max h r, h, r) ∧
      _hash_kmer exampleCodec ['A', 'C', 'G'] 3 = .ok (max h r) ∧
      _hash_forward exampleCodec ['A', 'C', 'G'] 3 = .ok h ∧
      _hash_forward exampleCodec (_revcomp ['A', 'C', 'G']) 3 = .ok r :=
  hash_is_max_of_orientations exampleCodec ['A', 'C', 'G'] 3 exampleCodec_complementLaw
    (by decide) (by decide) (by decide) (by decide)

/-- C5: for `1 ≤ k ≤ 32` and a k-mer `s` of length `k` over `A, C, G, T`, with
`complementCode(x) = code(complement(x))`, the call `_hash(s, k, h, r)`
succeeds and the reverse accumulator `r` it writes is the value returned by
`_hash_forward(_revcomp(s), k)`. -/
theorem hash_reverse_accumulator (c : Codec) (s : List Char) (k : Nat)
    (hcl : c.ComplementLaw) (h1 : 1 ≤ k) (h2 : k ≤ 32) (hl : s.length = k)
    (hs : ∀ ch ∈ s, isNucleotide ch) :
    ∃ ret h r, _hash c s k = .ok (ret, h, r) ∧
      _hash_forward c (_revcomp s) k = .ok r := by
  refine ⟨_, _, _, hash_of_kmer c s k h1 h2 hl hs, ?_⟩
  unfold _hash_forward
  rw [hash_of_revcomp c hcl s k h1 h2 hl hs]; rfl

/-- Witness of C5 on `"ACG"`, `k = 3`, with the example codec. -/
theorem hash_reverse_accumulator_witness :
    ∃ ret h r, _hash exampleCodec ['A', 'C', 'G'] 3 = .ok (ret, h, r) ∧
      _hash_forward exampleCodec (_revcomp ['A', 'C', 'G']) 3 = .ok r :=
  hash_reverse_accumulator exampleCodec ['A', 'C', 'G'] 3 exampleCodec_complementLaw
    (by decide) (by decide) (by decide) (by decide)

/-- C6: reverse-complement involution. For every string, of any length and
over any characters, `_revcomp(_revcomp(s)) = s`. -/
theorem revcomp_involutive (s : List Char) : _revcomp (_revcomp s) = s :=
  revcomp_revcomp s

/-- C7 at its failing input, a string of `2^31` characters `A`: the length does
not fit the `int ksize`, which becomes `-2^31`, the loop is not entered and
`_revcomp` returns the string unchanged, so position `n-1-0` holds `A` and not
the complement `T` of `s[0]`. -/
theorem revcomp_unchanged_on_int_overflow :
    size_to_int (List.replicate (2 ^ 31) 'A').length = -(2 ^ 31) ∧
      _revcomp (List.replicate (2 ^ 31) 'A') = List.replicate (2 ^ 31) 'A' ∧
      (_revcomp (List.replicate (2 ^ 31) 'A')).getD (2 ^ 31 - 1 - 0) NUL ≠
        complement ((List.replicate (2 ^ 31) 'A').getD 0 NUL) := by
  have hl : (List.replicate (2 ^ 31) 'A').length = 2 ^ 31 := List.length_replicate _ _
  have hk : size_to_int (List.replicate (2 ^ 31) 'A').length = -(2 ^ 31) := by
    rw [hl]; exact size_to_int_two_pow_31
  have hr := revcomp_of_int_nonpos (List.replicate (2 ^ 31) 'A') (by rw [hk]; norm_num)
  refine ⟨hk, hr, ?_⟩
  rw [hr, getD_replicate_A _ _ (by norm_num), getD_replicate_A _ _ (by norm_num)]
  decide

/-- C8: packing is injective. For `1 ≤ k ≤ 32` and two strings of length `k`
over `A, C, G, T`, with a 2-bit codec satisfying `decode(code(x)) = x`, equal
results of `_hash_forward` force equal strings. -/
theorem hash_forward_injective (c : Codec) (s t : List Char) (k : Nat)
    (hc : c.TwoBit) (hr : c.RoundTrip) (h1 : 1 ≤ k) (h2 : k ≤ 32)
    (hls : s.length = k) (hlt : t.length = k)
    (hs : ∀ ch ∈ s, isNucleotide ch) (ht : ∀ ch ∈ t, isNucleotide ch)
    (he : _hash_forward c s k = _hash_forward c t k) : s = t := by
  have es : _hash_forward c s k = .ok ((s.map c.twobit_repr).foldl shiftOr 0) := by
    unfold _hash_forward
    rw [hash_of_kmer c s k h1 h2 hls hs]; rfl
  have et : _hash_forward c t k = .ok ((t.map c.twobit_repr).foldl shiftOr 0) := by
    unfold _hash_forward
    rw [hash_of_kmer c t k h1 h2 hlt ht]; rfl
  rw [es, et] at he
  have hv : (s.map c.twobit_repr).foldl shiftOr 0 = (t.map c.twobit_repr).foldl shiftOr 0 := by
    injection he
  have rs := revhash_of_packed c hc hr s (by omega) (by omega) hs
  have rt := revhash_of_packed c hc hr t (by omega) (by omega) ht
  rw [hls] at rs
  rw [hlt] at rt
  rw [← rs, ← rt, hv]

/-- Witness of C8 on `"ACG"`, `k = 3`, with the example codec. -/
theorem hash_forward_injective_witness : ['A', 'C', 'G'] = ['A', 'C', 'G'] :=
  hash_forward_injective exampleCodec ['A', 'C', 'G'] ['A', 'C', 'G'] 3 exampleCodec_twoBit
    exampleCodec_roundTrip (by decide) (by decide) (by decide) (by decide) (by decide)
    (by decide) rfl

/-- C9: decoding then re-encoding reproduces the value. For `1 ≤ k ≤ 32` and a
value `v < 4^k`, with a 2-bit codec satisfying `decode(code(x)) = x`, the string
`_revhash(v, k)` has `k` symbols, all of them among `A, C, G, T`, and
`_hash_forward` of it returns `v`: packing reaches every 2k-bit integer. -/
theorem hash_forward_revhash (c : Codec) (v k : Nat) (hc : c.TwoBit) (hr : c.RoundTrip)
    (h1 : 1 ≤ k) (h2 : k ≤ 32) (hv : v < 4 ^ k) :
    (_revhash c v k).length = k ∧ (∀ ch ∈ _revhash c v k, isNucleotide ch) ∧
      _hash_forward c (_revhash c v k) k = .ok v := by
  have ek : k - 1 + 1 = k := by omega
  have hlen : (_revhash c v k).length = k := by rw [length_revhash, ek]
  have hn := revhash_nucleotides c hc hr v k
  refine ⟨hlen, hn, ?_⟩
  unfold _hash_forward
  rw [hash_of_kmer c _ k h1 h2 hlen hn, codes_revhash c hc hr v k, ek]
  have hx : ∀ x ∈ (digitsLSB k v).reverse, x < 4 := by
    intro x h; exact digitsLSB_lt k v x (List.mem_reverse.mp h)
  rw [foldl_shiftOr_pack _ hx (by simp [length_digitsLSB]; omega), packCodes_eq_packRev,
    List.reverse_reverse, packRev_digitsLSB, Nat.mod_eq_of_lt hv]
  rfl

/-- Witness of C9 on `v = 27`, `k = 3`, with the example codec. -/
theorem hash_forward_revhash_witness :
    (_revhash exampleCodec 27 3).length = 3 ∧
      (∀ ch ∈ _revhash exampleCodec 27 3, isNucleotide ch) ∧
      _hash_forward exampleCodec (_revhash exampleCodec 27 3) 3 = .ok 27 :=
  hash_forward_revhash exampleCodec 27 3 exampleCodec_twoBit exampleCodec_roundTrip
    (by decide) (by decide) (by decide)

/-- C10: the packed encoder throws exactly on bad lengths. For every string
and every `k`, `_hash(s, k, h, r)` throws `khmer_exception` if and only if
`k > 32` or the string is shorter than `k`; with `k = 32` and a string of
length at least 32 the call returns, and with `k = 33` it throws. -/
theorem hash_throws_iff_bad_length (c : Codec) (s : List Char) (k : Nat) :
    (_hash c s k = .error .khmer_exception ↔ (32 < k ∨ strlen s < k)) ∧
      (32 ≤ strlen s → ∃ res, _hash c s 32 = .ok res) ∧
      _hash c s 33 = .error .khmer_exception := by
  refine ⟨⟨?_, ?_⟩, ?_, ?_⟩
  · intro h
    by_contra hn
    have hk : k ≤ 32 ∧ k ≤ strlen s := by omega
    rcases Nat.eq_zero_or_pos k with h0 | h0
    · subst h0
      rw [hash_zero] at h
      exact absurd h (by decide)
    · rw [hash_eq_fold c s k h0 hk.1 hk.2] at h
      exact absurd h (by intro e; cases e)
  · intro h
    unfold _hash
    rw [if_pos (by simp only [sizeof_HashIntoType]; omega)]
  · intro h
    exact ⟨_, hash_eq_fold c s 32 (by decide) (by decide) h⟩
  · unfold _hash
    rw [if_pos (by simp [sizeof_HashIntoType])]

/-- Witness of C10: `"AC"` with `k = 3` is too short and throws, `"ACG"` with
`k = 3` does not. -/
theorem hash_throws_iff_bad_length_witness :
    _hash exampleCodec ['A', 'C'] 3 = .error .khmer_exception ∧
      ¬ _hash exampleCodec ['A', 'C', 'G'] 3 = .error .khmer_exception :=
  ⟨(hash_throws_iff_bad_length exampleCodec ['A', 'C'] 3).1.mpr (by decide),
   fun h => absurd ((hash_throws_iff_bad_length exampleCodec ['A', 'C', 'G'] 3).1.mp h)
     (by decide)⟩

/-- C11, as the code has it: the two failure causes of the packed encoder are
not reported as distinct kinds. A call with `k > 32` and a call with `k ≤ 32`
on a string shorter than `k` both end in the one `khmer_exception` of the
single `throw` statement, with the same message. -/
theorem hash_failures_share_one_exception (c : Codec) (s t : List Char) (k m : Nat)
    (hk : 32 < k) (_hm : m ≤ 32) (ht : strlen t < m) :
    _hash c s k = .error .khmer_exception ∧ _hash c t m = .error .khmer_exception ∧
      _hash c s k = _hash c t m := by
  have e1 : _hash c s k = .error .khmer_exception := by
    unfold _hash
    rw [if_pos (by simp only [sizeof_HashIntoType]; omega)]
  have e2 : _hash c t m = .error .khmer_exception := by
    unfold _hash
    rw [if_pos (by simp only [sizeof_HashIntoType]; omega)]
  exact ⟨e1, e2, by rw [e1, e2]⟩

/-- Witness of the amended C11: `"A"` with `k = 33` and `"A"` with `k = 2`. -/
theorem hash_failures_share_one_exception_witness :
    _hash exampleCodec ['A'] 33 = .error .khmer_exception ∧
      _hash exampleCodec ['A'] 2 = .error .khmer_exception ∧
      _hash exampleCodec ['A'] 33 = _hash exampleCodec ['A'] 2 :=
  hash_failures_share_one_exception exampleCodec ['A'] ['A'] 33 2
    (by decide) (by decide) (by decide)

/-- C11 fails as stated: a call that fails because `k = 33 > 32` and a call that
fails because the string `"A"` is shorter than `k = 2 ≤ 32` give the caller the
very same result, so the two causes cannot be told apart. -/
theorem hash_failure_kinds_not_distinct :
    ¬ (_hash exampleCodec ['A'] 33 ≠ _hash exampleCodec ['A'] 2) := by
  decide

/-- C12 at its failing input, with an 8-bit `WordLength` (`unsigned char`): a
string of 257 characters reaches `_hash` with `k = 1`, so `_hash_murmur` returns
a value instead of throwing, and a string of 256 characters reaches it with
`k = 0`, where the length check passes as well and nothing is thrown. -/
theorem hash_murmur_length_wraps (c : Codec) (mix : Nat → Nat) :
    (∃ res, _hash_murmur 8 c mix (List.replicate 257 'A') = .ok res) ∧
      _hash_murmur_forward 8 c mix (List.replicate 257 'A') =
        _hash_murmur_forward 8 c mix ['A'] ∧
      _hash_murmur 8 c mix (List.replicate 256 'A') ≠ .error .khmer_exception := by
  have e1 : toWordLength 8 (List.replicate 257 'A').length = 1 := by
    rw [List.length_replicate]; decide
  have e0 : toWordLength 8 (List.replicate 256 'A').length = 0 := by
    rw [List.length_replicate]; decide
  have t1 : (List.replicate 257 'A').take 1 = ['A'] := by
    rw [show (257 : Nat) = 256 + 1 from rfl, List.replicate_succ]; rfl
  have h257 := hash_eq_fold c (List.replicate 257 'A') 1 (by decide) (by decide)
    (by rw [strlen_replicate_A]; decide)
  have h1 := hash_eq_fold c ['A'] 1 (by decide) (by decide) (by decide)
  rw [t1] at h257
  have t2 : (['A'] : List Char).take 1 = ['A'] := rfl
  rw [t2] at h1
  refine ⟨?_, ?_, ?_⟩
  · unfold _hash_murmur
    rw [e1, h257]
    exact ⟨_, rfl⟩
  · unfold _hash_murmur_forward _hash_murmur
    rw [e1, h257]
    have e2 : toWordLength 8 (['A'] : List Char).length = 1 := by decide
    rw [e2, h1]
  · unfold _hash_murmur
    rw [e0, hash_zero]
    intro h
    cases h

/-- C13: strand symmetry of the mixing backend. For a string over `A, C, G, T`
with `1 ≤ length ≤ 32`, any mixing function, a codec with
`complementCode(x) = code(complement(x))` and a `WordLength` of at least 6 bits,
`_hash_murmur` returns the same value on `s` and on `_revcomp(s)`. -/
theorem hash_murmur_strand_symmetric (bits : Nat) (c : Codec) (mix : Nat → Nat)
    (s : List Char) (hcl : c.ComplementLaw) (hb : 6 ≤ bits) (h1 : 1 ≤ s.length)
    (h2 : s.length ≤ 32) (hs : ∀ ch ∈ s, isNucleotide ch) :
    ∃ v, _hash_murmur_kmer bits c mix s = .ok v ∧
      _hash_murmur_kmer bits c mix (_revcomp s) = .ok v := by
  refine ⟨wrap (mix ((s.map c.twobit_repr).foldl shiftOr 0)) ^^^
    wrap (mix ((s.reverse.map c.twobit_comp).foldl shiftOr 0)), ?_, ?_⟩
  · unfold _hash_murmur_kmer
    rw [hash_murmur_of_kmer bits c mix s hb h1 h2 hs]; rfl
  · unfold _hash_murmur_kmer
    rw [hash_murmur_of_revcomp bits c mix s hcl hb h1 h2 hs, Nat.xor_comm]; rfl

/-- Witness of C13 on `"ACG"` with the example codec and an 8-bit `WordLength`. -/
theorem hash_murmur_strand_symmetric_witness :
    ∃ v, _hash_murmur_kmer 8 exampleCodec (fun v => 3 * v + 1) ['A', 'C', 'G'] = .ok v ∧
      _hash_murmur_kmer 8 exampleCodec (fun v => 3 * v + 1) (_revcomp ['A', 'C', 'G']) =
        .ok v :=
  hash_murmur_strand_symmetric 8 exampleCodec (fun v => 3 * v + 1) ['A', 'C', 'G']
    exampleCodec_complementLaw (by decide) (by decide) (by decide) (by decide)

/-- C14: strand symmetry of the digest backend. For every string, of any
length and over any characters, and any digest function, `_hash_sha1` returns
the same value on `s` and on `_revcomp(s)`. -/
theorem hash_sha1_strand_symmetric (sha1 : List Char → Nat → Nat) (s : List Char) :
    _hash_sha1_kmer sha1 s = _hash_sha1_kmer sha1 (_revcomp s) := by
  unfold _hash_sha1_kmer
  rw [hash_sha1_eq, hash_sha1_eq, revcomp_revcomp]
  exact Nat.xor_comm _ _

/-- C15: with `d` the digest of `s` and `d'` the digest of `_revcomp(s)`,
`_hash_sha1_forward(s)` is the big-endian integer `Σ_{i<8} d[i] * 256^(7-i)` and
`_hash_sha1(s)` is that value xor the same fold of the first 8 bytes of `d'`. -/
theorem hash_sha1_big_endian (sha1 : List Char → Nat → Nat) (s : List Char) :
    _hash_sha1_forward sha1 s = ∑ i in Finset.range 8, digestByte sha1 s i * 256 ^ (7 - i) ∧
      _hash_sha1_kmer sha1 s =
        (∑ i in Finset.range 8, digestByte sha1 s i * 256 ^ (7 - i)) ^^^
          (∑ i in Finset.range 8, digestByte sha1 (_revcomp s) i * 256 ^ (7 - i)) := by
  unfold _hash_sha1_forward _hash_sha1_kmer
  rw [hash_sha1_eq]
  exact ⟨rfl, rfl⟩

/-- C16: decoding the reverse-complement side yields the reverse complement.
For `1 ≤ k ≤ 32` and a k-mer `s` of length `k` over `A, C, G, T`, with `(h, r)`
the pair written by `_hash(s, k, h, r)`, `_revhash(r, k) = _revcomp(s)`; and
whenever the returned canonical hash equals `r` and `r ≠ h`, decoding it gives
`_revcomp(s)` and not `s`. -/
theorem revhash_of_reverse_accumulator (c : Codec) (s : List Char) (k : Nat)
    (hc : c.TwoBit) (hr : c.RoundTrip) (hcl : c.ComplementLaw)
    (h1 : 1 ≤ k) (h2 : k ≤ 32) (hl : s.length = k) (hs : ∀ ch ∈ s, isNucleotide ch) :
    ∃ ret h r, _hash c s k = .ok (ret, h, r) ∧ _revhash c r k = _revcomp s ∧
      (ret = r → r ≠ h → _revhash c ret k = _revcomp s ∧ _revhash c ret k ≠ s) := by
  have hlr : (_revcomp s).length = k := by rw [length_revcomp]; exact hl
  have hrc := revhash_of_packed c hc hr (_revcomp s) (by omega) (by omega)
    (revcomp_nucleotides s hs)
  have hshort : s.length < 2 ^ 31 := lt_two_pow_31_of_le_32 _ (by omega)
  rw [codes_revcomp c hcl s hs hshort, hlr] at hrc
  refine ⟨_, _, _, hash_of_kmer c s k h1 h2 hl hs, hrc, ?_⟩
  intro hret hne
  rw [hret]
  refine ⟨hrc, ?_⟩
  intro hdec
  apply hne
  have hself : _revcomp s = s := by rw [← hrc, hdec]
  rw [← codes_revcomp c hcl s hs hshort, hself]

/-- Witness of C16 on `"ACG"`, `k = 3`, with the example codec. -/
theorem revhash_of_reverse_accumulator_witness :
    ∃ ret h r, _hash exampleCodec ['A', 'C', 'G'] 3 = .ok (ret, h, r) ∧
      _revhash exampleCodec r 3 = _revcomp ['A', 'C', 'G'] ∧
      (ret = r → r ≠ h → _revhash exampleCodec ret 3 = _revcomp ['A', 'C', 'G'] ∧
        _revhash exampleCodec ret 3 ≠ ['A', 'C', 'G']) :=
  revhash_of_reverse_accumulator exampleCodec ['A', 'C', 'G'] 3 exampleCodec_twoBit
    exampleCodec_roundTrip exampleCodec_complementLaw (by decide) (by decide) (by decide)
    (by decide)

/-- C17, amended to `k ≥ 1`: for every value `v` and every `k ≥ 1`, also beyond
32, `_revhash(v, k)` returns exactly `k` symbols, and its character at position
`k-1-i` is `decode((v >> 2i) & 3)` for every `i < k`. -/
theorem revhash_extracts_k_symbols (c : Codec) (v k : Nat) (h1 : 1 ≤ k) :
    (_revhash c v k).length = k ∧
      ∀ i, i < k →
        (_revhash c v k).getD (k - 1 - i) NUL = c.revtwobit_repr ((v >>> (2 * i)) &&& 3) := by
  refine ⟨?_, ?_⟩
  · rw [length_revhash]; omega
  · intro i hi
    exact revhash_getD c v k i h1 hi

/-- Witness of the amended C17 on `v = 27`, `k = 3`, with the example codec. -/
theorem revhash_extracts_k_symbols_witness :
    (_revhash exampleCodec 27 3).length = 3 ∧
      ∀ i, i < 3 →
        (_revhash exampleCodec 27 3).getD (3 - 1 - i) NUL =
          exampleCodec.revtwobit_repr ((27 >>> (2 * i)) &&& 3) :=
  revhash_extracts_k_symbols exampleCodec 27 3 (by decide)

/-- C17 fails as stated at `k = 0`: the first extraction is outside the loop, so
`_revhash(0, 0)` returns one symbol, not zero. -/
theorem revhash_at_zero_returns_one_symbol :
    ¬ ((_revhash exampleCodec 0 0).length = 0) ∧ _revhash exampleCodec 0 0 = ['A'] := by
  decide

/-- C18 at its failing input `k = 0`: for every string the length check of
`_hash` passes, the read `kmer[k-1]` is the read of index `-1`, in front of the
string, and the call ends in that read instead of returning. -/
theorem hash_reads_before_string_at_zero (c : Codec) (s : List Char) :
    ¬ (¬ (0 ≤ sizeof_HashIntoType * 4) ∨ ¬ (strlen s ≥ 0)) ∧
      charAt s (((0 : Nat) : Int) - 1) = .error .out_of_bounds ∧
      _hash c s 0 = .error .out_of_bounds := by
  refine ⟨by simp, by simp [charAt], hash_zero c s⟩

/-- C19: the exclusive-or backends collapse self-reverse-complementary strings
to zero. For every string with `_revcomp(s) = s`, `_hash_sha1(s) = 0`; when in
addition `s` is over `A, C, G, T` with `1 ≤ length ≤ 32` (codec with
`complementCode(x) = code(complement(x))`, `WordLength` of at least 6 bits),
`_hash_murmur(s)` returns 0. -/
theorem xor_backends_vanish_on_self_revcomp (sha1 : List Char → Nat → Nat) (bits : Nat)
    (c : Codec) (mix : Nat → Nat) (s : List Char) (hp : _revcomp s = s) :
    _hash_sha1_kmer sha1 s = 0 ∧
      (c.ComplementLaw → 6 ≤ bits → 1 ≤ s.length → s.length ≤ 32 →
        (∀ ch ∈ s, isNucleotide ch) → _hash_murmur_kmer bits c mix s = .ok 0) := by
  refine ⟨?_, ?_⟩
  · unfold _hash_sha1_kmer
    rw [hash_sha1_eq, hp]
    exact Nat.xor_self _
  · intro hcl hb h1 h2 hs
    unfold _hash_murmur_kmer
    rw [hash_murmur_of_kmer bits c mix s hb h1 h2 hs,
      ← codes_revcomp c hcl s hs (lt_two_pow_31_of_le_32 _ h2), hp,
      Nat.xor_self]
    rfl

/-- Witness of C19 on `"AT"`, its own reverse complement. -/
theorem xor_backends_vanish_on_self_revcomp_witness :
    _hash_sha1_kmer (fun s i => s.length + i) ['A', 'T'] = 0 ∧
      (exampleCodec.ComplementLaw → 6 ≤ 8 → 1 ≤ ['A', 'T'].length →
        ['A', 'T'].length ≤ 32 → (∀ ch ∈ ['A', 'T'], isNucleotide ch) →
        _hash_murmur_kmer 8 exampleCodec (fun v => 3 * v + 1) ['A', 'T'] = .ok 0) :=
  xor_backends_vanish_on_self_revcomp (fun s i => s.length + i) 8 exampleCodec
    (fun v => 3 * v + 1) ['A', 'T'] (by decide)

/-- C20: the decoder ignores the bits above the low `2k`. For `1 ≤ k ≤ 32` and
values `v`, `w` with `v mod 4^k = w mod 4^k`, `_revhash(v, k) = _revhash(w, k)`;
so `v` decodes to the string of its low `2k` bits, and when `v` has a bit set
above them (`v ≥ 4^k`) that string re-encodes to `v mod 4^k`, not to `v`. -/
theorem revhash_ignores_high_bits (c : Codec) (v w k : Nat) (h1 : 1 ≤ k) (h2 : k ≤ 32)
    (hvw : v % 4 ^ k = w % 4 ^ k) :
    _revhash c v k = _revhash c w k ∧ _revhash c v k = _revhash c (v % 4 ^ k) k ∧
      (c.TwoBit → c.RoundTrip → 4 ^ k ≤ v →
        _hash_forward c (_revhash c v k) k = .ok (v % 4 ^ k) ∧ v % 4 ^ k ≠ v) := by
  have ek : k - 1 + 1 = k := by omega
  have hv : _revhash c v k = _revhash c (v % 4 ^ k) k := by
    rw [revhash_eq, revhash_eq, ek, digitsLSB_mod k v]
  have hw : _revhash c w k = _revhash c (w % 4 ^ k) k := by
    rw [revhash_eq, revhash_eq, ek, digitsLSB_mod k w]
  refine ⟨by rw [hv, hw, hvw], hv, ?_⟩
  intro hc hr hge
  refine ⟨revhash_reencodes_mod c v k hc hr h1 h2, ?_⟩
  have hlt : v % 4 ^ k < 4 ^ k := Nat.mod_lt _ (Nat.pos_pow_of_pos k (by norm_num))
  omega

/-- Witness of C20 on `v = 91 = 64 + 27`, `w = 27`, `k = 3`. -/
theorem revhash_ignores_high_bits_witness :
    _revhash exampleCodec 91 3 = _revhash exampleCodec 27 3 ∧
      _revhash exampleCodec 91 3 = _revhash exampleCodec (91 % 4 ^ 3) 3 ∧
      (exampleCodec.TwoBit → exampleCodec.RoundTrip → 4 ^ 3 ≤ 91 →
        _hash_forward exampleCodec (_revhash exampleCodec 91 3) 3 = .ok (91 % 4 ^ 3) ∧
          91 % 4 ^ 3 ≠ 91) :=
  revhash_ignores_high_bits exampleCodec 91 27 3 (by decide) (by decide) (by decide)

end khmer
